import Mathlib

/-!
Shallow embedding of the ring-puckering analysis code (`ring_analysis.py`)
over exact real arithmetic.  Python floats are modelled as `ℝ`; numpy arrays
as `List ℝ` (or `List Vec3` for coordinate arrays); fallible code returns
`Except RingError`.  Where Python/numpy produce NaN instead of raising
(division by a zero norm), the model is the total real-valued function, with
real division by zero evaluating to `0`.
-/

noncomputable section

namespace RingPucker

open Real

/-- A 3-D point, matching one row of the numpy coordinate array. -/
abbrev Vec3 := ℝ × ℝ × ℝ

/-- Dot product of two 3-vectors (`np.dot` on 3-vectors). -/
def dot3 (a b : Vec3) : ℝ := a.1 * b.1 + a.2.1 * b.2.1 + a.2.2 * b.2.2

/-- Cross product of two 3-vectors (`np.cross`). -/
def cross3 (a b : Vec3) : Vec3 :=
  (a.2.1 * b.2.2 - a.2.2 * b.2.1,
   a.2.2 * b.1 - a.1 * b.2.2,
   a.1 * b.2.1 - a.2.1 * b.1)

/-- Euclidean norm of a 3-vector (`np.linalg.norm`). -/
def norm3 (a : Vec3) : ℝ := Real.sqrt (a.1 ^ 2 + a.2.1 ^ 2 + a.2.2 ^ 2)

/-- Per-axis arithmetic mean of a list of points (`coordinates.mean(axis=0)`).
For the empty list this is `0` (numpy would yield NaN; never hit by the code). -/
def mean (c : List Vec3) : Vec3 := ((c.length : ℝ))⁻¹ • c.sum

/-- `translate(coordinates)`: subtract the centroid from every point
(`coordinates - coordinates.mean(axis=0)`). -/
def translate (c : List Vec3) : List Vec3 := c.map (fun p => p - mean c)

/-- `R1` of `get_mean_plane`: `np.dot(sin(2π·arange(N)/N), coordinates)`. -/
def R1 (c : List Vec3) : Vec3 :=
  (c.enum.map (fun jp => Real.sin (2 * π * jp.1 / c.length) • jp.2)).sum

/-- `R2` of `get_mean_plane`: `np.dot(cos(2π·arange(N)/N), coordinates)`. -/
def R2 (c : List Vec3) : Vec3 :=
  (c.enum.map (fun jp => Real.cos (2 * π * jp.1 / c.length) • jp.2)).sum

/-- Error taxonomy: the names used by the specification, together with the
exceptions the Python runtime itself can raise in this code. -/
inductive RingError where
  | invalidRingSize
  | degenerateRing
  | unsupportedRingSize
  | unknownSystem
  | unboundLocal  -- Python `UnboundLocalError`
  | indexError    -- Python `IndexError`
  deriving DecidableEq, Repr

/-- The value computed by `get_normal`: `cross / norm(cross)`, with no
degeneracy guard.  When the norm is zero, numpy produces NaN components;
in this exact model the components are `0` (real division by zero). -/
def get_normal_val (c : List Vec3) : Vec3 :=
  (norm3 (cross3 (R1 c) (R2 c)))⁻¹ • cross3 (R1 c) (R2 c)

/-- `get_normal` viewed through the error interface of the specification:
the source contains no check and never raises, so the result is always `ok`. -/
def get_normal (c : List Vec3) : Except RingError Vec3 :=
  .ok (get_normal_val c)

/-- `displacement(coordinates)`: `np.dot(coordinates, n)`, the per-atom
signed distance from the mean plane. -/
def displacement (c : List Vec3) : List ℝ :=
  c.map (fun p => dot3 p (get_normal_val c))

/-- The condition of `np.allclose(0, x, rtol=1e-06, atol=1e-08)`:
every entry satisfies `|0 - x_i| ≤ atol + rtol * |x_i|`. -/
def allCloseZero (x : List ℝ) : Prop :=
  ∀ v ∈ x, |v| ≤ 1e-8 + 1e-6 * |v|

instance (x : List ℝ) : Decidable (allCloseZero x) :=
  List.decidableBAll _ x

/-- `fix_zero(x)`: replace the whole array by `[0.0]` when all entries are
close to zero, else keep it. -/
def fix_zero (x : List ℝ) : List ℝ :=
  if allCloseZero x then [0] else x

/-- `np.degrees`. -/
def degrees (r : ℝ) : ℝ := r * 180 / π

/-- `np.deg2rad`. -/
def deg2rad (d : ℝ) : ℝ := d * π / 180

/-- `np.arctan2(y, x)` on exact reals (no signed zeros). -/
def atan2 (y x : ℝ) : ℝ :=
  if 0 < x then Real.arctan (y / x)
  else if x < 0 then
    (if 0 ≤ y then Real.arctan (y / x) + π else Real.arctan (y / x) - π)
  else
    (if 0 < y then π / 2 else if y < 0 then -(π / 2) else 0)

/-- `np.where(a < 0, a + 2π, a)` applied entrywise. -/
def posAngle (a : ℝ) : ℝ := if a < 0 then a + 2 * π else a

/-- `range(2, N // 2)` used in the even branch of `get_ring_pucker_coords`. -/
def mRangeEven (N : ℕ) : List ℕ := List.range' 2 (N / 2 - 2)

/-- `range(2, (N - 1) // 2 + 1)` used in the odd branch. -/
def mRangeOdd (N : ℕ) : List ℕ := List.range' 2 ((N - 1) / 2 - 1)

/-- `np.dot(z, cos(2πk·arange(N)/N))`. -/
def cosComp (z : List ℝ) (N k : ℕ) : ℝ :=
  (z.enum.map (fun jp => jp.2 * Real.cos (2 * π * k * jp.1 / N))).sum

/-- `np.dot(z, sin(2πk·arange(N)/N))`. -/
def sinComp (z : List ℝ) (N k : ℕ) : ℝ :=
  (z.enum.map (fun jp => jp.2 * Real.sin (2 * π * k * jp.1 / N))).sum

/-- Even branch `qcos`: `sqrt(2/N) * cos_component`. -/
def qcosEven (z : List ℝ) (N : ℕ) : List ℝ :=
  (mRangeEven N).map (fun k => Real.sqrt (2 / N) * cosComp z N k)

/-- Even branch `qsin`: `-sqrt(2/N) * sin_component`. -/
def qsinEven (z : List ℝ) (N : ℕ) : List ℝ :=
  (mRangeEven N).map (fun k => -(Real.sqrt (2 / N)) * sinComp z N k)

/-- Odd branch `qcos` before `fix_zero`. -/
def qcosOddRaw (z : List ℝ) (N : ℕ) : List ℝ :=
  (mRangeOdd N).map (fun k => Real.sqrt (2 / N) * cosComp z N k)

/-- Odd branch `qsin` before `fix_zero`. -/
def qsinOddRaw (z : List ℝ) (N : ℕ) : List ℝ :=
  (mRangeOdd N).map (fun k => -(Real.sqrt (2 / N)) * sinComp z N k)

/-- The extra unpaired term of the even branch:
`(1/sqrt(N)) * np.dot(z, cos(arange(N)·π))`. -/
def extraTerm (z : List ℝ) (N : ℕ) : ℝ :=
  (1 / Real.sqrt N) * (z.enum.map (fun jp => jp.2 * Real.cos (jp.1 * π))).sum

/-- numpy elementwise broadcasting of a binary operation over two 1-D arrays;
in this code the shapes are always `(L, L)`, `(1, L)`, `(L, 1)` or `(1, 1)`. -/
def bcast (f : ℝ → ℝ → ℝ) (xs ys : List ℝ) : List ℝ :=
  if xs.length = ys.length then List.zipWith f xs ys
  else if xs.length = 1 then ys.map (f xs.headI)
  else if ys.length = 1 then xs.map (fun v => f v ys.headI)
  else []

/-- `get_ring_pucker_coords(coordinates)`: the Cremer–Pople Fourier
decomposition, returning `(amplitude, angle_deg, angle_rad)`.  For a ring
size outside `4 < N ≤ 20` the Python function prints a message and then
executes `return amplitude, ...` with `amplitude` never assigned, raising
`UnboundLocalError`. -/
def get_ring_pucker_coords (c : List Vec3) :
    Except RingError (List ℝ × List ℝ × List ℝ) :=
  let N := c.length
  let z := displacement c
  if 4 < N ∧ N ≤ 20 then
    if N % 2 = 0 then
      let qc := qcosEven z N
      let qs := qsinEven z N
      let q := List.zipWith (fun s co => Real.sqrt (s ^ 2 + co ^ 2)) qs qc
      let amplitude := q ++ [extraTerm z N]
      let angle_rad := (List.zipWith atan2 qs qc).map posAngle
      let angle_deg := angle_rad.map degrees
      .ok (amplitude, angle_deg, angle_rad)
    else
      let qc := fix_zero (qcosOddRaw z N)
      let qs := fix_zero (qsinOddRaw z N)
      let amplitude := bcast (fun s co => Real.sqrt (s ^ 2 + co ^ 2)) qs qc
      let angle_rad := (bcast atan2 qs qc).map posAngle
      let angle_deg := angle_rad.map degrees
      .ok (amplitude, angle_deg, angle_rad)
  else .error .unboundLocal

/-- `get_total_puckering_amplitude(amplitude)`. -/
def get_total_puckering_amplitude (amplitude : List ℝ) : ℝ :=
  Real.sqrt ((amplitude.map (fun v => v ^ 2)).sum)

/-- `get_spherical_polar_set_n6(amplitude, angle_deg)`.  The source performs
no length check: `amplitude[0]`, `amplitude[1]` and `angle_deg[0]` raise
`IndexError` when out of range, and any longer amplitude array is accepted
silently. -/
def get_spherical_polar_set_n6 (amplitude angle_deg : List ℝ) :
    Except RingError (ℝ × ℝ × ℝ) :=
  let Q := Real.sqrt ((amplitude.map (fun v => v ^ 2)).sum)
  if 2 ≤ amplitude.length then
    if 1 ≤ angle_deg.length then
      .ok (Q, degrees (atan2 (amplitude.getD 0 0) (amplitude.getD 1 0)),
           angle_deg.getD 0 0)
    else .error .indexError
  else .error .indexError

/-- Python float `%` (sign of the divisor): `x - y * ⌊x / y⌋`. -/
def pmod (x y : ℝ) : ℝ := x - y * ⌊x / y⌋

/-- The flat landmark table of `conformation_haversine`, in the source's
iteration order.  For the families without an explicit `phi` list the
query's own (already normalized) `phi` is used, so only θ discriminates. -/
def landmarks (θ φ : ℝ) : List (String × ℝ × ℝ) :=
  [("Chair (C)", 0, φ), ("Chair (C)", 180, φ),
   ("Boat (B)", 90, 0), ("Boat (B)", 90, 60), ("Boat (B)", 90, 120),
   ("Boat (B)", 90, 180), ("Boat (B)", 90, 240), ("Boat (B)", 90, 300),
   ("Twist-Boat (TB)", 90, 30), ("Twist-Boat (TB)", 90, 90),
   ("Twist-Boat (TB)", 90, 150), ("Twist-Boat (TB)", 90, 210),
   ("Twist-Boat (TB)", 90, 270), ("Twist-Boat (TB)", 90, 330),
   ("Half-Chair (HC)", 30, φ), ("Half-Chair (HC)", 150, φ),
   ("Half-Boat (HB)", 60, φ), ("Half-Boat (HB)", 120, φ)]

/-- The distance the classifier computes: the flat Euclidean norm of the
difference of the `(latitude, longitude)` embeddings (in radians). -/
def chordDist (θ φ tr pr : ℝ) : ℝ :=
  Real.sqrt ((deg2rad (90 - θ) - deg2rad (90 - tr)) ^ 2 +
             (deg2rad φ - deg2rad pr) ^ 2)

/-- The `(label, distance)` list the classifier's double loop walks over,
already flattened in iteration order. -/
def distPairs (theta_deg phi_deg : ℝ) : List (String × ℝ) :=
  let t := pmod theta_deg 180
  let f := pmod phi_deg 360
  (landmarks t f).map (fun e => (e.1, chordDist t f e.2.1 e.2.2))

/-- The running-minimum loop: start with `min_distance = inf`,
`assigned = None`; replace only on a strictly smaller distance.  The first
finite distance always replaces the initial infinity, which the `none`
case models. -/
def selectMin : Option (String × ℝ) → List (String × ℝ) → Option (String × ℝ)
  | acc, [] => acc
  | none, q :: rest => selectMin (some q) rest
  | some p, q :: rest => selectMin (some (if q.2 < p.2 then q else p)) rest

/-- `conformation_haversine(amplitude, theta_deg, phi_deg)`.  The
`amplitude` argument is accepted but never used by the body. -/
def conformation_haversine (amplitude : List ℝ) (theta_deg phi_deg : ℝ) :
    Option String :=
  (selectMin none (distPairs theta_deg phi_deg)).map Prod.fst

/-- The `Q, θ, φ` part of the `get_pucker_values` pipeline:
translate, then `get_ring_pucker_coords`, then `get_spherical_polar_set_n6`. -/
def pucker_QTP (c : List Vec3) : Except RingError (ℝ × ℝ × ℝ) :=
  (get_ring_pucker_coords (translate c)).bind
    (fun r => get_spherical_polar_set_n6 r.1 r.2.1)

/-- Shape observer for `get_ring_pucker_coords` results: the three list
lengths on success, `none` on failure. -/
def resultLengths (r : Except RingError (List ℝ × List ℝ × List ℝ)) :
    Option (ℕ × ℕ × ℕ) :=
  match r with
  | .ok (a, d, rr) => some (a.length, d.length, rr.length)
  | .error _ => none

/-- First amplitude list of a `get_ring_pucker_coords` result, if any. -/
def ampOf (r : Except RingError (List ℝ × List ℝ × List ℝ)) :
    Option (List ℝ) :=
  match r with
  | .ok (a, _, _) => some a
  | .error _ => none

/-- `theta_deg` produced by feeding a `get_ring_pucker_coords` result into
`get_spherical_polar_set_n6`, if both steps succeed. -/
def thetaOf (c : List Vec3) : Option ℝ :=
  match get_ring_pucker_coords c with
  | .ok (amp, adeg, _) =>
      match get_spherical_polar_set_n6 amp adeg with
      | .ok (_, t, _) => some t
      | .error _ => none
  | .error _ => none

/-! ### Concrete inputs used by witnesses and counterexamples -/

/-- A degenerate six-membered "ring": all atoms at the origin. -/
def zeros6 : List Vec3 :=
  [(0, 0, 0), (0, 0, 0), (0, 0, 0), (0, 0, 0), (0, 0, 0), (0, 0, 0)]

/-- A degenerate five-membered "ring": all atoms at the origin. -/
def zeros5 : List Vec3 := [(0, 0, 0), (0, 0, 0), (0, 0, 0), (0, 0, 0), (0, 0, 0)]

/-- A three-membered input (ring size below the supported range). -/
def zeros3 : List Vec3 := [(0, 0, 0), (0, 0, 0), (0, 0, 0)]

/-- A concrete two-point coordinate set. -/
def pts2 : List Vec3 := [(1, 2, 3), (3, 2, 1)]

/-- A concrete non-planar hexagon. -/
def hex6 : List Vec3 :=
  [(1, 0, 0), (0, 1, 0), (0, 0, 1), (1, 1, 0), (0, 1, 1), (1, 0, 1)]

/-! ### Helper lemmas -/

lemma sum_eq_zero_of_all_zero {c : List Vec3} (h : ∀ p ∈ c, p = (0 : Vec3)) :
    c.sum = 0 := by
  induction c with
  | nil => rfl
  | cons a l ih =>
      rw [List.sum_cons, h a (List.mem_cons_self a l),
        ih fun p hp => h p (List.mem_cons_of_mem a hp), zero_add]

lemma R1_of_all_zero {c : List Vec3} (h : ∀ p ∈ c, p = (0 : Vec3)) :
    R1 c = 0 := by
  apply sum_eq_zero_of_all_zero
  intro p hp
  simp only [List.mem_map] at hp
  obtain ⟨jp, hjp, rfl⟩ := hp
  have hmem : jp.2 ∈ c := by
    rw [List.enum_eq_zip_range] at hjp
    exact (List.of_mem_zip (by simpa using hjp)).2
  rw [h _ hmem, smul_zero]

lemma R2_of_all_zero {c : List Vec3} (h : ∀ p ∈ c, p = (0 : Vec3)) :
    R2 c = 0 := by
  apply sum_eq_zero_of_all_zero
  intro p hp
  simp only [List.mem_map] at hp
  obtain ⟨jp, hjp, rfl⟩ := hp
  have hmem : jp.2 ∈ c := by
    rw [List.enum_eq_zip_range] at hjp
    exact (List.of_mem_zip (by simpa using hjp)).2
  rw [h _ hmem, smul_zero]

lemma norm3_eq_zero : ∀ {v : Vec3}, norm3 v = 0 → v = 0 := by
  rintro ⟨a, b, c⟩ h
  simp only [norm3] at h
  have hsum : a ^ 2 + b ^ 2 + c ^ 2 ≤ 0 := Real.sqrt_eq_zero'.mp h
  have h0 : a ^ 2 + b ^ 2 + c ^ 2 = 0 := le_antisymm hsum (by positivity)
  show (a, b, c) = ((0 : ℝ), (0 : ℝ), (0 : ℝ))
  simp only [Prod.mk.injEq]
  refine ⟨?_, ?_, ?_⟩ <;> nlinarith [sq_nonneg a, sq_nonneg b, sq_nonneg c]

lemma norm3_cross_zeros6 : norm3 (cross3 (R1 zeros6) (R2 zeros6)) = 0 := by
  have h1 : R1 zeros6 = 0 := R1_of_all_zero (by intro p hp; fin_cases hp <;> rfl)
  have h2 : R2 zeros6 = 0 := R2_of_all_zero (by intro p hp; fin_cases hp <;> rfl)
  rw [h1, h2]
  show norm3 (cross3 ((0:ℝ),(0:ℝ),(0:ℝ)) ((0:ℝ),(0:ℝ),(0:ℝ))) = 0
  unfold cross3 norm3
  norm_num

/-! ### Claims C2, C3, C5, C10 -/

/-- C2 counterexample: at ring size 3 (three all-zero points),
`get_ring_pucker_coords` fails with Python's `UnboundLocalError` (the
`amplitude` variable is never assigned), not with `InvalidRingSizeError`. -/
theorem c2_counterexample :
    get_ring_pucker_coords zeros3 = Except.error RingError.unboundLocal ∧
    get_ring_pucker_coords zeros3 ≠ Except.error RingError.invalidRingSize := by
  refine ⟨?_, ?_⟩ <;> simp [get_ring_pucker_coords, zeros3]

/-- C2 (amended): for every input whose ring size N is outside 5 ≤ N ≤ 20,
`get_ring_pucker_coords` does fail rather than return a value, but it fails
with `UnboundLocalError` (after printing a message), because the code never
defines or raises `InvalidRingSizeError`. -/
theorem c2_out_of_range_fails_unbound (c : List Vec3)
    (h : c.length ≤ 4 ∨ 20 < c.length) :
    get_ring_pucker_coords c = Except.error RingError.unboundLocal := by
  simp only [get_ring_pucker_coords]
  rw [if_neg (by omega)]

/-- C2 witness: the amended theorem applied at the concrete ring size 3. -/
theorem c2_witness :
    get_ring_pucker_coords zeros3 = Except.error RingError.unboundLocal :=
  c2_out_of_range_fails_unbound zeros3 (Or.inl (by decide))

/-- C3 counterexample: for the concrete degenerate coordinate set with all
six atoms at the origin, `|R1 × R2| = 0` (below any small positive epsilon),
yet `get_normal` does not report `DegenerateRingError`: the source has no
guard and performs the division (NaN in floating point, the zero vector in
this exact model). -/
theorem c3_counterexample :
    norm3 (cross3 (R1 zeros6) (R2 zeros6)) = 0 ∧
    get_normal zeros6 ≠ Except.error RingError.degenerateRing := by
  exact ⟨norm3_cross_zeros6, by simp [get_normal]⟩

/-- C3 (amended): `get_normal` has no degeneracy guard at all.  Whenever
`|R1 × R2| = 0` it still returns a (garbage) value — the unit-normal
division degenerates to the zero vector in exact arithmetic (NaN in
floating point) — and no `DegenerateRingError` is ever reported. -/
theorem c3_no_degeneracy_guard (c : List Vec3)
    (h : norm3 (cross3 (R1 c) (R2 c)) = 0) :
    get_normal c = Except.ok (0 : Vec3) := by
  have hz : cross3 (R1 c) (R2 c) = 0 := norm3_eq_zero h
  simp [get_normal, get_normal_val, hz]

/-- C3 witness: the amended theorem applied at the all-zero hexagon. -/
theorem c3_witness : get_normal zeros6 = Except.ok (0 : Vec3) :=
  c3_no_degeneracy_guard zeros6 norm3_cross_zeros6

/-- C5 counterexample: a 3-entry amplitude sequence (with a 1-entry angle
sequence) is accepted silently by `get_spherical_polar_set_n6`; it does not
fail with `UnsupportedRingSizeError`. -/
theorem c5_counterexample :
    get_spherical_polar_set_n6 [1, 2, 3] [5] ≠
      Except.error RingError.unsupportedRingSize ∧
    ([(1 : ℝ), 2, 3].length ≠ 2) := by
  refine ⟨?_, by simp⟩
  simp [get_spherical_polar_set_n6]

/-- C5 (amended): `get_spherical_polar_set_n6` performs no ring-size check.
Any amplitude sequence with at least 2 entries (and a non-empty angle
sequence) is accepted and a result computed from its first two entries;
an amplitude sequence with fewer than 2 entries fails with Python's
`IndexError`, not `UnsupportedRingSizeError`. -/
theorem c5_no_ring_size_check (amp ang : List ℝ) :
    (2 ≤ amp.length → 1 ≤ ang.length →
      get_spherical_polar_set_n6 amp ang =
        Except.ok (get_total_puckering_amplitude amp,
          degrees (atan2 (amp.getD 0 0) (amp.getD 1 0)), ang.getD 0 0)) ∧
    (amp.length < 2 →
      get_spherical_polar_set_n6 amp ang = Except.error RingError.indexError) := by
  constructor
  · intro h1 h2
    simp [get_spherical_polar_set_n6, get_total_puckering_amplitude, h1, h2]
  · intro h
    simp only [get_spherical_polar_set_n6]
    rw [if_neg (by omega)]

/-- C5 witness: the amended theorem applied at a 3-entry amplitude (silent
computation) and at an empty amplitude (`IndexError`). -/
theorem c5_witness :
    get_spherical_polar_set_n6 [1, 2, 3] [5] =
      Except.ok (get_total_puckering_amplitude [1, 2, 3],
        degrees (atan2 (([(1 : ℝ), 2, 3]).getD 0 0) (([(1 : ℝ), 2, 3]).getD 1 0)),
        ([(5 : ℝ)]).getD 0 0) ∧
    get_spherical_polar_set_n6 [] [] = Except.error RingError.indexError :=
  ⟨(c5_no_ring_size_check [1, 2, 3] [5]).1 (by norm_num) (by norm_num),
   (c5_no_ring_size_check [] []).2 (by norm_num)⟩

/-! ### Translation lemmas (claims C6, C8) -/

lemma sum_map_sub (c : List Vec3) (m : Vec3) :
    (c.map (fun p => p - m)).sum = c.sum - (c.length : ℝ) • m := by
  induction c with
  | nil => simp
  | cons a l ih =>
      simp only [List.map_cons, List.sum_cons, ih, List.length_cons]
      push_cast
      rw [add_smul, one_smul]
      abel

lemma sum_map_add (c : List Vec3) (t : Vec3) :
    (c.map (fun p => p + t)).sum = c.sum + (c.length : ℝ) • t := by
  induction c with
  | nil => simp
  | cons a l ih =>
      simp only [List.map_cons, List.sum_cons, ih, List.length_cons]
      push_cast
      rw [add_smul, one_smul]
      abel

lemma mean_map_sub (c : List Vec3) (m : Vec3) (h : (c.length : ℝ) ≠ 0) :
    mean (c.map (fun p => p - m)) = mean c - m := by
  simp only [mean, List.length_map, sum_map_sub]
  rw [smul_sub, smul_smul, inv_mul_cancel₀ h, one_smul]

lemma mean_map_add (c : List Vec3) (t : Vec3) (h : (c.length : ℝ) ≠ 0) :
    mean (c.map (fun p => p + t)) = mean c + t := by
  simp only [mean, List.length_map, sum_map_add]
  rw [smul_add, smul_smul, inv_mul_cancel₀ h, one_smul]

lemma mean_translate {c : List Vec3} (h : (c.length : ℝ) ≠ 0) :
    mean (translate c) = 0 := by
  unfold translate
  rw [mean_map_sub c (mean c) h, sub_self]

lemma translate_map_add (c : List Vec3) (t : Vec3) (h : (c.length : ℝ) ≠ 0) :
    translate (c.map (fun p => p + t)) = translate c := by
  unfold translate
  rw [mean_map_add c t h, List.map_map]
  have hfun : ((fun p => p - (mean c + t)) ∘ (fun p : Vec3 => p + t)) =
      fun p : Vec3 => p - mean c := by
    funext p
    simp only [Function.comp]
    abel
  rw [hfun]

/-- C8: `translate` returns a sequence of the same length obtained by
subtracting the per-axis mean from each point, and the centroid of the
result is at the origin (exactly zero in this model, hence within `1e-9`
on every axis). -/
theorem c8_translate_centroid (c : List Vec3) (h : c ≠ []) :
    (translate c).length = c.length ∧
    (∀ i, i < c.length → (translate c).getD i 0 = c.getD i 0 - mean c) ∧
    |(mean (translate c)).1| ≤ 1e-9 ∧
    |(mean (translate c)).2.1| ≤ 1e-9 ∧
    |(mean (translate c)).2.2| ≤ 1e-9 := by
  have hn : (c.length : ℝ) ≠ 0 :=
    Nat.cast_ne_zero.mpr (Nat.pos_iff_ne_zero.mp (List.length_pos.mpr h))
  have h0 : mean (translate c) = 0 := mean_translate hn
  refine ⟨List.length_map c _, ?_, ?_, ?_, ?_⟩
  · intro i hi
    rw [List.getD_eq_getElem _ _ (by simpa [translate] using hi),
      List.getD_eq_getElem _ _ hi]
    simp [translate]
  · rw [h0]; norm_num
  · rw [h0]; norm_num
  · rw [h0]; norm_num

/-- C8 witness: the theorem applied at a concrete two-point set. -/
theorem c8_witness :
    (translate pts2).length = pts2.length ∧
    (∀ i, i < pts2.length → (translate pts2).getD i 0 = pts2.getD i 0 - mean pts2) ∧
    |(mean (translate pts2)).1| ≤ 1e-9 ∧
    |(mean (translate pts2)).2.1| ≤ 1e-9 ∧
    |(mean (translate pts2)).2.2| ≤ 1e-9 :=
  c8_translate_centroid pts2 (by simp [pts2])

/-- C6: translating all ring atoms of a six-membered ring by a constant
vector `t` leaves the `(Q, theta_deg, phi_deg)` result of the pipeline
(translate → `get_ring_pucker_coords` → `get_spherical_polar_set_n6`)
unchanged. -/
theorem c6_translation_invariance (c : List Vec3) (t : Vec3)
    (h : c.length = 6) :
    pucker_QTP (c.map (fun p => p + t)) = pucker_QTP c := by
  have hn : (c.length : ℝ) ≠ 0 := by rw [h]; norm_num
  unfold pucker_QTP
  rw [translate_map_add c t hn]

/-- C6 witness: the theorem applied at a concrete hexagon and offset. -/
theorem c6_witness :
    pucker_QTP (hex6.map (fun p => p + ((1 : ℝ), (2 : ℝ), (3 : ℝ)))) =
      pucker_QTP hex6 :=
  c6_translation_invariance hex6 (1, 2, 3) rfl

/-! ### Output shapes of the Fourier decomposition (claim C4) -/

lemma bcast_len_of_eq (f : ℝ → ℝ → ℝ) (xs ys : List ℝ)
    (h : xs.length = ys.length) : (bcast f xs ys).length = ys.length := by
  unfold bcast
  rw [if_pos h, List.length_zipWith, h, min_self]

lemma bcast_len_of_left_one (f : ℝ → ℝ → ℝ) (xs ys : List ℝ)
    (hx : xs.length = 1) : (bcast f xs ys).length = ys.length := by
  unfold bcast
  by_cases h : xs.length = ys.length
  · rw [if_pos h, List.length_zipWith, h, min_self]
  · rw [if_neg h, if_pos hx, List.length_map]

lemma bcast_len_of_right_one (f : ℝ → ℝ → ℝ) (xs ys : List ℝ)
    (hy : ys.length = 1) : (bcast f xs ys).length = xs.length := by
  unfold bcast
  by_cases h : xs.length = ys.length
  · rw [if_pos h, List.length_zipWith, h, min_self]
  · rw [if_neg h, if_neg (fun hx1 => h (hx1.trans hy.symm)), if_pos hy,
      List.length_map]

lemma fix_zero_cases (x : List ℝ) : fix_zero x = x ∨ fix_zero x = [0] := by
  unfold fix_zero
  split_ifs
  · exact Or.inr rfl
  · exact Or.inl rfl

lemma grpc_even_shape (c : List Vec3) (h1 : 4 < c.length)
    (h2 : c.length ≤ 20) (h3 : c.length % 2 = 0) :
    resultLengths (get_ring_pucker_coords c) =
      some (c.length / 2 - 1, c.length / 2 - 2, c.length / 2 - 2) := by
  simp only [get_ring_pucker_coords]
  rw [if_pos ⟨h1, h2⟩, if_pos h3]
  simp only [resultLengths, Option.some.injEq, Prod.mk.injEq]
  simp only [qcosEven, qsinEven, mRangeEven, List.length_append,
    List.length_zipWith, List.length_map, List.length_range',
    List.length_cons, List.length_nil, min_self]
  exact ⟨by omega, trivial, trivial⟩

lemma grpc_odd_shape (c : List Vec3) (h1 : 4 < c.length)
    (h2 : c.length ≤ 20) (h3 : c.length % 2 = 1) :
    resultLengths (get_ring_pucker_coords c) =
      some ((c.length - 3) / 2, (c.length - 3) / 2, (c.length - 3) / 2) ∨
    resultLengths (get_ring_pucker_coords c) = some (1, 1, 1) := by
  simp only [get_ring_pucker_coords]
  rw [if_pos ⟨h1, h2⟩, if_neg (by omega)]
  simp only [resultLengths, Option.some.injEq, Prod.mk.injEq]
  have hqc : (qcosOddRaw (displacement c) c.length).length =
      (c.length - 3) / 2 := by
    simp only [qcosOddRaw, mRangeOdd, List.length_map, List.length_range']
    omega
  have hqs : (qsinOddRaw (displacement c) c.length).length =
      (c.length - 3) / 2 := by
    simp only [qsinOddRaw, mRangeOdd, List.length_map, List.length_range']
    omega
  rcases fix_zero_cases (qcosOddRaw (displacement c) c.length) with hc | hc <;>
    rcases fix_zero_cases (qsinOddRaw (displacement c) c.length) with hs | hs
  · left
    have key : ∀ f : ℝ → ℝ → ℝ,
        (bcast f (fix_zero (qsinOddRaw (displacement c) c.length))
          (fix_zero (qcosOddRaw (displacement c) c.length))).length =
          (c.length - 3) / 2 := fun f => by
      rw [hs, hc, bcast_len_of_eq f _ _ (hqs.trans hqc.symm), hqc]
    exact ⟨key _, by rw [List.length_map, List.length_map, key], by
      rw [List.length_map, key]⟩
  · left
    have key : ∀ f : ℝ → ℝ → ℝ,
        (bcast f (fix_zero (qsinOddRaw (displacement c) c.length))
          (fix_zero (qcosOddRaw (displacement c) c.length))).length =
          (c.length - 3) / 2 := fun f => by
      rw [hs, hc, bcast_len_of_left_one f _ _ (by simp), hqc]
    exact ⟨key _, by rw [List.length_map, List.length_map, key], by
      rw [List.length_map, key]⟩
  · left
    have key : ∀ f : ℝ → ℝ → ℝ,
        (bcast f (fix_zero (qsinOddRaw (displacement c) c.length))
          (fix_zero (qcosOddRaw (displacement c) c.length))).length =
          (c.length - 3) / 2 := fun f => by
      rw [hs, hc, bcast_len_of_right_one f _ _ (by simp), hqs]
    exact ⟨key _, by rw [List.length_map, List.length_map, key], by
      rw [List.length_map, key]⟩
  · right
    have key : ∀ f : ℝ → ℝ → ℝ,
        (bcast f (fix_zero (qsinOddRaw (displacement c) c.length))
          (fix_zero (qcosOddRaw (displacement c) c.length))).length = 1 := fun f => by
      rw [hs, hc, bcast_len_of_eq f _ _ rfl, List.length_cons, List.length_nil]
    exact ⟨key _, by rw [List.length_map, List.length_map, key], by
      rw [List.length_map, key]⟩

/-- C4 (amended): for a valid ring size `4 < N ≤ 20`,
`get_ring_pucker_coords` returns, for even N, an amplitude sequence of
length `N/2 − 1` (counting the extra unpaired `k = N/2` term) together with
degree- and radian-angle sequences of length `N/2 − 2` — one fewer than the
amplitudes; for odd N all three sequences have the same length, namely
`(N−3)/2`, except that the `fix_zero` snap-to-zero guard can collapse both
component arrays, in which case the common length is 1.  (The claimed
lengths `⌊N/2⌋` and `⌊(N−1)/2⌋` are each off by one.) -/
theorem c4_amplitude_angle_lengths (c : List Vec3) (h1 : 4 < c.length)
    (h2 : c.length ≤ 20) :
    (c.length % 2 = 0 →
      resultLengths (get_ring_pucker_coords c) =
        some (c.length / 2 - 1, c.length / 2 - 2, c.length / 2 - 2)) ∧
    (c.length % 2 = 1 →
      (resultLengths (get_ring_pucker_coords c) =
        some ((c.length - 3) / 2, (c.length - 3) / 2, (c.length - 3) / 2) ∨
       resultLengths (get_ring_pucker_coords c) = some (1, 1, 1))) :=
  ⟨grpc_even_shape c h1 h2, grpc_odd_shape c h1 h2⟩

/-- C4 counterexample: for the concrete six-membered input the amplitude
sequence has 2 entries, not `⌊6/2⌋ = 3` as the claim states. -/
theorem c4_counterexample :
    resultLengths (get_ring_pucker_coords zeros6) = some (2, 1, 1) ∧
    (2 : ℕ) ≠ 6 / 2 :=
  ⟨grpc_even_shape zeros6 (by decide) (by decide) (by decide), by decide⟩

/-- C4 witness: the amended theorem applied at concrete six- and
five-membered inputs. -/
theorem c4_witness :
    resultLengths (get_ring_pucker_coords zeros6) =
      some (zeros6.length / 2 - 1, zeros6.length / 2 - 2,
            zeros6.length / 2 - 2) ∧
    (resultLengths (get_ring_pucker_coords zeros5) =
      some ((zeros5.length - 3) / 2, (zeros5.length - 3) / 2,
            (zeros5.length - 3) / 2) ∨
     resultLengths (get_ring_pucker_coords zeros5) = some (1, 1, 1)) :=
  ⟨(c4_amplitude_angle_lengths zeros6 (by decide) (by decide)).1 (by decide),
   (c4_amplitude_angle_lengths zeros5 (by decide) (by decide)).2 (by decide)⟩

/-! ### Non-negative amplitudes and θ range (claim C9) -/

lemma grpc_even_ok (c : List Vec3) (h1 : 4 < c.length)
    (h2 : c.length ≤ 20) (h3 : c.length % 2 = 0) :
    get_ring_pucker_coords c = Except.ok
      (List.zipWith (fun s co => Real.sqrt (s ^ 2 + co ^ 2))
          (qsinEven (displacement c) c.length) (qcosEven (displacement c) c.length)
        ++ [extraTerm (displacement c) c.length],
       ((List.zipWith atan2 (qsinEven (displacement c) c.length)
          (qcosEven (displacement c) c.length)).map posAngle).map degrees,
       (List.zipWith atan2 (qsinEven (displacement c) c.length)
          (qcosEven (displacement c) c.length)).map posAngle) := by
  simp only [get_ring_pucker_coords]
  rw [if_pos ⟨h1, h2⟩, if_pos h3]

lemma zipWith_sqrt_nonneg (xs ys : List ℝ) :
    ∀ v ∈ List.zipWith (fun s co => Real.sqrt (s ^ 2 + co ^ 2)) xs ys, 0 ≤ v := by
  induction xs generalizing ys with
  | nil => simp
  | cons x xs ih =>
      cases ys with
      | nil => simp
      | cons y ys =>
          intro v hv
          simp only [List.zipWith_cons_cons, List.mem_cons] at hv
          rcases hv with rfl | hv'
          · exact Real.sqrt_nonneg _
          · exact ih ys v hv'

lemma atan2_nonneg_le_pi {y x : ℝ} (hy : 0 ≤ y) :
    0 ≤ atan2 y x ∧ atan2 y x ≤ π := by
  have hpi := Real.pi_pos
  unfold atan2
  split_ifs with hx hx2 hy2 hy3
  · constructor
    · rw [← Real.arctan_zero]
      exact Real.arctan_strictMono.monotone (div_nonneg hy hx.le)
    · linarith [Real.arctan_lt_pi_div_two (y / x)]
  · constructor
    · linarith [Real.neg_pi_div_two_lt_arctan (y / x)]
    · have harc : Real.arctan (y / x) ≤ 0 := by
        rw [← Real.arctan_zero]
        exact Real.arctan_strictMono.monotone
          (div_nonpos_of_nonneg_of_nonpos hy hx2.le)
      linarith
  · constructor <;> linarith
  · exact absurd hy3 (not_lt.mpr hy)
  · constructor <;> linarith

lemma degrees_mem_0_180 {r : ℝ} (h0 : 0 ≤ r) (h1 : r ≤ π) :
    0 ≤ degrees r ∧ degrees r ≤ 180 := by
  have hpi := Real.pi_pos
  unfold degrees
  constructor
  · positivity
  · rw [div_le_iff hpi]
    nlinarith

/-- C9: for every even ring size in the valid range, every amplitude entry
except the final unpaired term is a Euclidean norm `sqrt(qsin² + qcos²)`,
hence non-negative; consequently for the N = 6 pipeline the `theta_deg`
produced by `get_spherical_polar_set_n6` — `degrees(atan2(q2, q3))` with
`q2 ≥ 0` — lies in the closed interval `[0, 180]`. -/
theorem c9_nonneg_amplitudes_theta_range (c : List Vec3) (h1 : 4 < c.length)
    (h2 : c.length ≤ 20) (h3 : c.length % 2 = 0) :
    (∀ xs ∈ ampOf (get_ring_pucker_coords c), ∀ v ∈ xs.dropLast, 0 ≤ v) ∧
    (c.length = 6 → ∀ t ∈ thetaOf c, 0 ≤ t ∧ t ≤ 180) := by
  have hok := grpc_even_ok c h1 h2 h3
  constructor
  · intro xs hxs v hv
    rw [hok] at hxs
    simp only [ampOf, Option.mem_def, Option.some.injEq] at hxs
    subst hxs
    rw [List.dropLast_concat] at hv
    exact zipWith_sqrt_nonneg _ _ v hv
  · intro h6 t ht
    have hlq : (qsinEven (displacement c) c.length).length = 1 := by
      simp only [qsinEven, mRangeEven, List.length_map, List.length_range', h6]
    have hlc : (qcosEven (displacement c) c.length).length = 1 := by
      simp only [qcosEven, mRangeEven, List.length_map, List.length_range', h6]
    obtain ⟨s, hs⟩ := List.length_eq_one.mp hlq
    obtain ⟨co, hco⟩ := List.length_eq_one.mp hlc
    have hval : thetaOf c = some (degrees (atan2 (Real.sqrt (s ^ 2 + co ^ 2))
        (extraTerm (displacement c) c.length))) := by
      unfold thetaOf
      rw [hok, hs, hco]
      simp only [List.zipWith_cons_cons, List.zipWith_nil_left,
        List.cons_append, List.nil_append]
      simp [get_spherical_polar_set_n6]
    rw [hval, Option.mem_def, Option.some.injEq] at ht
    subst ht
    obtain ⟨ha0, ha1⟩ := atan2_nonneg_le_pi (x := extraTerm (displacement c) c.length)
      (Real.sqrt_nonneg (s ^ 2 + co ^ 2))
    exact degrees_mem_0_180 ha0 ha1

/-- C9 witness: the theorem applied at a concrete six-membered input, with
the N = 6 consequence discharged. -/
theorem c9_witness :
    (∀ xs ∈ ampOf (get_ring_pucker_coords zeros6), ∀ v ∈ xs.dropLast, 0 ≤ v) ∧
    (∀ t ∈ thetaOf zeros6, 0 ≤ t ∧ t ≤ 180) :=
  ⟨(c9_nonneg_amplitudes_theta_range zeros6 (by decide) (by decide)
      (by decide)).1,
   (c9_nonneg_amplitudes_theta_range zeros6 (by decide) (by decide)
      (by decide)).2 (by decide)⟩

/-! ### The classifier always assigns the first nearest family (claim C1) -/

/-- Reference value of the strict-minimum loop: the element kept after
scanning `xs` starting from the current best `p`, replacing only on a
strictly smaller distance. -/
def best (p : String × ℝ) : List (String × ℝ) → String × ℝ
  | [] => p
  | q :: rest => best (if q.2 < p.2 then q else p) rest

lemma selectMin_some (xs : List (String × ℝ)) :
    ∀ p, selectMin (some p) xs = some (best p xs) := by
  induction xs with
  | nil => intro p; rfl
  | cons q rest ih => intro p; exact ih _

lemma best_le (xs : List (String × ℝ)) : ∀ p, (best p xs).2 ≤ p.2 := by
  induction xs with
  | nil => intro p; exact le_refl _
  | cons q rest ih =>
      intro p
      show (best (if q.2 < p.2 then q else p) rest).2 ≤ p.2
      refine le_trans (ih _) ?_
      split_ifs with h
      · exact h.le
      · exact le_refl _

lemma best_first_min (xs : List (String × ℝ)) : ∀ p, ∃ pre post,
    p :: xs = pre ++ best p xs :: post ∧
    (∀ q ∈ pre, (best p xs).2 < q.2) ∧
    (∀ q ∈ post, (best p xs).2 ≤ q.2) := by
  induction xs with
  | nil =>
      intro p
      exact ⟨[], [], rfl, by simp, by simp⟩
  | cons y ys ih =>
      intro p
      by_cases h : y.2 < p.2
      · obtain ⟨pre, post, heq, hpre, hpost⟩ := ih y
        have hbest : best p (y :: ys) = best y ys := by
          show best (if y.2 < p.2 then y else p) ys = best y ys
          rw [if_pos h]
        have hblt : (best y ys).2 < p.2 := lt_of_le_of_lt (best_le ys y) h
        refine ⟨p :: pre, post, ?_, ?_, ?_⟩
        · rw [hbest, List.cons_append, ← heq]
        · intro q hq
          rw [hbest]
          rcases List.mem_cons.mp hq with rfl | hq'
          · exact hblt
          · exact hpre q hq'
        · intro q hq
          rw [hbest]
          exact hpost q hq
      · obtain ⟨pre, post, heq, hpre, hpost⟩ := ih p
        have hbest : best p (y :: ys) = best p ys := by
          show best (if y.2 < p.2 then y else p) ys = best p ys
          rw [if_neg h]
        have hple : p.2 ≤ y.2 := not_lt.mp h
        cases pre with
        | nil =>
            simp only [List.nil_append] at heq
            injection heq with h1 h2
            refine ⟨[], y :: post, ?_, by simp, ?_⟩
            · rw [hbest, ← h1, List.nil_append, h2]
            · intro q hq
              rw [hbest, ← h1]
              rcases List.mem_cons.mp hq with rfl | hq'
              · exact hple
              · have hq2 := hpost q hq'
                rw [← h1] at hq2
                exact hq2
        | cons p0 pre2 =>
            simp only [List.cons_append] at heq
            injection heq with h1 h2
            have hbp : (best p ys).2 < p.2 := by
              have hm := hpre p0 (List.mem_cons_self p0 pre2)
              rw [← h1] at hm
              exact hm
            refine ⟨p :: y :: pre2, post, ?_, ?_, ?_⟩
            · rw [hbest, List.cons_append, List.cons_append, ← h2]
            · intro q hq
              rw [hbest]
              rcases List.mem_cons.mp hq with rfl | hq'
              · exact hbp
              · rcases List.mem_cons.mp hq' with rfl | hq''
                · exact lt_of_lt_of_le hbp hple
                · exact hpre q (List.mem_cons_of_mem p0 hq'')
            · intro q hq
              rw [hbest]
              exact hpost q hq

lemma distPairs_labels (theta_deg phi_deg : ℝ) :
    ∀ x ∈ distPairs theta_deg phi_deg,
      x.1 ∈ ["Chair (C)", "Boat (B)", "Twist-Boat (TB)", "Half-Chair (HC)",
             "Half-Boat (HB)"] := by
  intro x hx
  simp only [distPairs, List.mem_map] at hx
  obtain ⟨e, he, rfl⟩ := hx
  fin_cases he <;> simp

/-- C1: for every input pair, the classifier returns exactly one of the
five labels — never `none` — and the returned label is the family of the
first landmark in enumeration order achieving the minimum distance: its
distance is strictly below every earlier landmark's and at most every
later landmark's, so ties resolve to the family enumerated first. -/
theorem c1_classifier_total_first_min (a : List ℝ) (theta_deg phi_deg : ℝ) :
    ∃ x pre post,
      conformation_haversine a theta_deg phi_deg = some x.1 ∧
      x.1 ∈ ["Chair (C)", "Boat (B)", "Twist-Boat (TB)", "Half-Chair (HC)",
             "Half-Boat (HB)"] ∧
      distPairs theta_deg phi_deg = pre ++ x :: post ∧
      (∀ q ∈ pre, x.2 < q.2) ∧
      (∀ q ∈ post, x.2 ≤ q.2) := by
  cases hL : distPairs theta_deg phi_deg with
  | nil =>
      exfalso
      have hlen : (distPairs theta_deg phi_deg).length = 18 := by
        simp [distPairs, landmarks]
      rw [hL] at hlen
      simp at hlen
  | cons hd tl =>
      obtain ⟨pre, post, heq, hpre, hpost⟩ := best_first_min tl hd
      refine ⟨best hd tl, pre, post, ?_, ?_, ?_, hpre, hpost⟩
      · unfold conformation_haversine
        rw [hL]
        show (selectMin (some hd) tl).map Prod.fst = some (best hd tl).1
        rw [selectMin_some tl hd]
        rfl
      · apply distPairs_labels theta_deg phi_deg
        rw [hL, heq]
        exact List.mem_append_right pre (List.mem_cons_self _ _)
      · exact heq

/-! ### Modulo periodicity (claim C7) -/

lemma pmod_add_int_mul (x y : ℝ) (k : ℤ) (hy : y ≠ 0) :
    pmod (x + y * k) y = pmod x y := by
  unfold pmod
  have hdiv : (x + y * k) / y = x / y + k := by
    rw [add_div, mul_div_cancel_left₀ _ hy]
  rw [hdiv, Int.floor_add_int]
  push_cast
  ring

/-- C7: the classification only depends on `theta_deg` modulo 180 and
`phi_deg` modulo 360, so adding `180·k1` to θ and `360·k2` to φ (for any
integers `k1`, `k2`) leaves the assigned conformation unchanged. -/
theorem c7_periodicity (a : List ℝ) (theta_deg phi_deg : ℝ) (k1 k2 : ℤ) :
    conformation_haversine a (theta_deg + 180 * k1) (phi_deg + 360 * k2) =
      conformation_haversine a theta_deg phi_deg := by
  unfold conformation_haversine distPairs
  rw [pmod_add_int_mul theta_deg 180 k1 (by norm_num),
    pmod_add_int_mul phi_deg 360 k2 (by norm_num)]

/-- C10: `conformation_haversine` does not depend on its amplitude
argument — the parameter is accepted but never read by the body, so any two
amplitude values give the same classification. -/
theorem c10_amplitude_unused (a1 a2 : List ℝ) (theta_deg phi_deg : ℝ) :
    conformation_haversine a1 theta_deg phi_deg =
      conformation_haversine a2 theta_deg phi_deg := rfl

end RingPucker
